import Mathlib

/-!
Verification development for the FastForestLib level-synchronous random-forest
trainer (src/cpp/image_weak_learner.h, src/cpp/level_forest_trainer.h,
src/cpp/training.h).

Machine integers of the source (`pixel_type`, `offset_type`, `label_type` are
`std::int16_t`; `size_type`, `int_type` are wider signed integers) are embedded
as `ℤ`/`ℕ`; the single place where the source performs a narrowing conversion
back into `int16_t` (the assignment of the scalar pixel difference to `PixelT`
in `ImageSplitPoint::evaluate`) is modelled explicitly by `wrapInt16`.
`scalar_type` is a floating-point type; all scalar values occurring in the
embedded computations are exactly representable, so scalars are embedded as
`ℚ`, with the two floating-point limit constants used by the source
(`std::numeric_limits::max()` and `std::numeric_limits::min()`) embedded as
their exact IEEE-754 double-precision rational values.
-/

namespace FastForest

/-- Two's-complement reduction of an integer into the `int16_t` range
`[-2^15, 2^15)`.  This models the narrowing conversion that occurs when the
source assigns a wider value to a variable of type `PixelT = std::int16_t`. -/
def wrapInt16 (z : ℤ) : ℤ :=
  (z + 2 ^ 15) % 2 ^ 16 - 2 ^ 15

/-- An `ait::Image`: a data grid and a label grid of identical dimensions
(`width` = number of rows of the Eigen matrix, `height` = number of columns).
Pixels and labels are `int16_t` values, embedded as `ℤ`; the grids are total
functions, and only coordinates inside `[0, width) × [0, height)` are ever
read by the embedded operations (out-of-range feature reads are zero-padded by
`compute_pixel_value` before any grid access). -/
structure Image where
  width : ℤ
  height : ℤ
  data : ℤ → ℤ → ℤ
  label : ℤ → ℤ → ℤ

/-- An `ait::ImageSample`: a reference to an image together with the pixel
coordinates (x, y) of the sample. -/
structure ImageSample where
  image : Image
  x : ℤ
  y : ℤ

/-- `ImageSample::get_label`: the label of the sample's pixel. -/
def ImageSample.get_label (s : ImageSample) : ℤ :=
  s.image.label s.x s.y

/-- An `ait::ImageFeature`: a quadruple of pixel offsets. -/
structure ImageFeature where
  offset_x1 : ℤ
  offset_y1 : ℤ
  offset_x2 : ℤ
  offset_y2 : ℤ

/-- `ImageFeature::compute_pixel_value` (and the identical private
`ImageSplitPoint::compute_pixel_value`): read the data pixel at the sample's
coordinates displaced by the given offsets, yielding 0 whenever the displaced
coordinates fall outside `[0, width) × [0, height)`. -/
def compute_pixel_value (s : ImageSample) (offset_x offset_y : ℤ) : ℤ :=
  if s.x + offset_x < 0 ∨ s.x + offset_x ≥ s.image.width ∨
     s.y + offset_y < 0 ∨ s.y + offset_y ≥ s.image.height then
    0
  else
    s.image.data (s.x + offset_x) (s.y + offset_y)

/-- `ImageFeature::compute_pixel_difference`: the difference of the two
offset pixel reads.  The source returns this as `scalar_type`; both pixel
values are `int16_t`, so the difference is an exact integer. -/
def ImageFeature.compute_pixel_difference (f : ImageFeature) (s : ImageSample) : ℤ :=
  compute_pixel_value s f.offset_x1 f.offset_y1 - compute_pixel_value s f.offset_x2 f.offset_y2

/-- An `ait::ImageThreshold`, holding one scalar threshold. -/
structure ImageThreshold where
  threshold : ℚ

/-- `ImageThreshold::left_direction`: a feature value routes left exactly when
it is strictly below the threshold. -/
def ImageThreshold.left_direction (t : ImageThreshold) (value : ℚ) : Bool :=
  if value < t.threshold then true else false

/-- The `ait::Direction` of a routed sample. -/
inductive Direction where
  | LEFT
  | RIGHT
deriving DecidableEq, Repr

/-- An `ait::ImageSplitPoint`: four offsets and a threshold. -/
structure ImageSplitPoint where
  offset_x1 : ℤ
  offset_y1 : ℤ
  offset_x2 : ℤ
  offset_y2 : ℤ
  threshold : ℚ

/-- The `ImageSplitPoint(const ImageFeature&, const ImageThreshold&)`
constructor. -/
def mkImageSplitPoint (f : ImageFeature) (t : ImageThreshold) : ImageSplitPoint :=
  ⟨f.offset_x1, f.offset_y1, f.offset_x2, f.offset_y2, t.threshold⟩

/-- `ImageSplitPoint::compute_pixel_difference`: identical arithmetic to
`ImageFeature::compute_pixel_difference`. -/
def ImageSplitPoint.compute_pixel_difference (sp : ImageSplitPoint) (s : ImageSample) : ℤ :=
  compute_pixel_value s sp.offset_x1 sp.offset_y1 - compute_pixel_value s sp.offset_x2 sp.offset_y2

/-- `ImageSplitPoint::evaluate(const ImageSample&)`.  The source first stores
the `scalar_type` pixel difference into a variable of type
`PixelT = std::int16_t` (a narrowing conversion, modelled as two's-complement
wrap into the `int16_t` range) and then compares that converted value against
the threshold, returning LEFT on strict inequality and RIGHT otherwise. -/
def ImageSplitPoint.evaluate (sp : ImageSplitPoint) (s : ImageSample) : Direction :=
  if (wrapInt16 (sp.compute_pixel_difference s) : ℚ) < sp.threshold then
    Direction.LEFT
  else
    Direction.RIGHT

/-- The error kinds thrown by the embedded operations. -/
inductive CppError where
  | invalid_argument
deriving DecidableEq, Repr

/-- Outcome of calling an embedded operation: a returned value, an exception
surfaced to the caller, or an unchecked precondition violation (a disabled
`assert` followed by out-of-range container access, which surfaces no error
to the caller). -/
inductive CallOutcome (α : Type) where
  | ok (a : α)
  | thrown (e : CppError)
  | unchecked

/-- An `ait::ImageSplitPointCandidates`: the ordered list of
(feature, thresholds) pairs plus the running `total_size_` counter. -/
structure ImageSplitPointCandidates where
  candidates : List (ImageFeature × List ImageThreshold)
  total_size : ℕ

/-- The `ImageSplitPointCandidates()` default constructor. -/
def emptyCandidates : ImageSplitPointCandidates :=
  ⟨[], 0⟩

/-- `ImageSplitPointCandidates::add_feature_and_thresholds`: append the pair
and grow `total_size_` by the number of thresholds. -/
def ImageSplitPointCandidates.add_feature_and_thresholds
    (c : ImageSplitPointCandidates) (f : ImageFeature) (ths : List ImageThreshold) :
    ImageSplitPointCandidates :=
  ⟨c.candidates ++ [(f, ths)], c.total_size + ths.length⟩

/-- `ImageSplitPointCandidates::size`: the number of features. -/
def ImageSplitPointCandidates.size (c : ImageSplitPointCandidates) : ℕ :=
  c.candidates.length

/-- The sum of the threshold-list lengths of a candidate list: the number of
flattened (feature, threshold) pairs actually traversed by
`get_split_point`. -/
def flatLength (cs : List (ImageFeature × List ImageThreshold)) : ℕ :=
  (cs.map (fun p => p.2.length)).sum

/-- The nested loop of `ImageSplitPointCandidates::get_split_point`: walk the
(feature, thresholds) pairs with a running flattened counter and return the
pair at the requested flattened index, if any. -/
def get_split_point_aux :
    List (ImageFeature × List ImageThreshold) → ℕ → Option ImageSplitPoint
  | [], _ => none
  | (f, ths) :: rest, index =>
    if h : index < ths.length then
      some (mkImageSplitPoint f (ths.get ⟨index, h⟩))
    else
      get_split_point_aux rest (index - ths.length)

/-- `ImageSplitPointCandidates::get_split_point`: the opening
`assert(index < total_size())` is a debug-only check (compiled out under
`NDEBUG`); the loop returns the split point at the flattened index and throws
`std::invalid_argument` when the loop runs off the end without finding it. -/
def ImageSplitPointCandidates.get_split_point
    (c : ImageSplitPointCandidates) (index : ℕ) : CallOutcome ImageSplitPoint :=
  match get_split_point_aux c.candidates index with
  | some sp => CallOutcome.ok sp
  | none => CallOutcome.thrown CppError.invalid_argument

/-- `MemoryImageProvider::get_image`: the body is
`assert(image_index < images_.size()); return images_[image_index];`.  For an
out-of-range index the `assert` is compiled out under `NDEBUG` and
`std::vector::operator[]` is an unchecked access, so no error is surfaced to
the caller. -/
def memory_provider_get_image (images : List Image) (image_index : ℕ) :
    CallOutcome Image :=
  if h : image_index < images.length then
    CallOutcome.ok (images.get ⟨image_index, h⟩)
  else
    CallOutcome.unchecked

/-- A 1×1 all-zero image used as a concrete test fixture. -/
def trivialImage : Image :=
  ⟨1, 1, fun _ _ => 0, fun _ _ => 0⟩

/-- A 2×1 image whose two data pixels are the extreme `int16_t` values. -/
def extremeImage : Image :=
  ⟨2, 1, fun x _ => if x = 0 then 32767 else -32768, fun _ _ => 0⟩

/-- The sample at pixel (0, 0) of `extremeImage`. -/
def extremeSample : ImageSample :=
  ⟨extremeImage, 0, 0⟩

/-- A split point comparing pixel (x, y) against pixel (x+1, y) with
threshold 0. -/
def extremeSplitPoint : ImageSplitPoint :=
  ⟨0, 0, 1, 0, 0⟩

/-- Modelled from the spec: the `HistogramStatistics` class of
`histogram_statistics.h` is not under src/.  Per §3 of the spec, Statistics
is a class-label histogram plus sample count supporting `accumulate(sample)`,
`lazy_accumulate(sample)` together with `finish_lazy_accumulation()` (a
batched form whose externally observable result equals calling `accumulate`
on each sample), and `num_of_samples()`.  The observable content is the list
of flushed labels (in accumulation order); `lazy_accumulate` appends to a
pending buffer that becomes observable only when
`finish_lazy_accumulation` flushes it. -/
structure LazyHistogramStatistics where
  flushed : List ℤ
  pending : List ℤ
deriving DecidableEq, Repr

/-- Modelled from the spec: `empty()` statistics. -/
def LazyHistogramStatistics.empty : LazyHistogramStatistics :=
  ⟨[], []⟩

/-- Modelled from the spec: immediate `accumulate(sample)`. -/
def LazyHistogramStatistics.accumulate
    (st : LazyHistogramStatistics) (label : ℤ) : LazyHistogramStatistics :=
  ⟨st.flushed ++ [label], st.pending⟩

/-- Modelled from the spec: `lazy_accumulate(sample)` buffers the sample
without yet affecting the observable statistics. -/
def LazyHistogramStatistics.lazy_accumulate
    (st : LazyHistogramStatistics) (label : ℤ) : LazyHistogramStatistics :=
  ⟨st.flushed, st.pending ++ [label]⟩

/-- Modelled from the spec: `finish_lazy_accumulation()` flushes the pending
buffer into the observable statistics. -/
def LazyHistogramStatistics.finish_lazy_accumulation
    (st : LazyHistogramStatistics) : LazyHistogramStatistics :=
  ⟨st.flushed ++ st.pending, []⟩

/-- Modelled from the spec: `num_of_samples()` counts the accumulated
(observable) samples. -/
def LazyHistogramStatistics.num_of_samples (st : LazyHistogramStatistics) : ℕ :=
  st.flushed.length

/-- An `ait::SplitStatistics`: parallel arrays of left and right per-candidate
statistics, indexed by the flattened candidate index. -/
structure SplitStatistics where
  left : List LazyHistogramStatistics
  right : List LazyHistogramStatistics
deriving DecidableEq, Repr

/-- The `SplitStatistics(total_size, statistics_factory)` constructor: one
empty statistics object per flattened candidate index on each side. -/
def SplitStatistics.create (total : ℕ) : SplitStatistics :=
  ⟨List.replicate total LazyHistogramStatistics.empty,
   List.replicate total LazyHistogramStatistics.empty⟩

/-- In-place update of one list element (the effect of mutating the
reference returned by `get_left_statistics`/`get_right_statistics`). -/
def listModify {α : Type} : List α → ℕ → (α → α) → List α
  | [], _, _ => []
  | a :: rest, 0, f => f a :: rest
  | a :: rest, n + 1, f => a :: listModify rest n f

/-- Mutation through `SplitStatistics::get_left_statistics(index)`. -/
def SplitStatistics.modifyLeft (ss : SplitStatistics) (n : ℕ)
    (f : LazyHistogramStatistics → LazyHistogramStatistics) : SplitStatistics :=
  ⟨listModify ss.left n f, ss.right⟩

/-- Mutation through `SplitStatistics::get_right_statistics(index)`. -/
def SplitStatistics.modifyRight (ss : SplitStatistics) (n : ℕ)
    (f : LazyHistogramStatistics → LazyHistogramStatistics) : SplitStatistics :=
  ⟨ss.left, listModify ss.right n f⟩

/-- `ImageWeakLearner::_compute_split_statistics`: one pass over the samples
routes each sample into left/right at the running flattened index via
`lazy_accumulate`; afterwards the finish loop runs once per threshold, but
the source re-declares `size_type statistics_index = statistics_index_offset`
inside the loop body, so every iteration calls `finish_lazy_accumulation` at
`statistics_index_offset` and the trailing `++statistics_index` is dead:
indices `statistics_index_offset + 1 ..` are never finished. -/
def compute_split_statistics_inner (samples : List ImageSample)
    (split_statistics : SplitStatistics) (statistics_index_offset : ℕ)
    (feature : ImageFeature) (thresholds : List ImageThreshold) : SplitStatistics :=
  let afterPass := samples.foldl (fun ss1 sample =>
    let value : ℚ := (feature.compute_pixel_difference sample : ℚ)
    (thresholds.foldl (fun (acc : SplitStatistics × ℕ) th =>
        if th.left_direction value then
          (acc.1.modifyLeft acc.2 (fun st => st.lazy_accumulate sample.get_label), acc.2 + 1)
        else
          (acc.1.modifyRight acc.2 (fun st => st.lazy_accumulate sample.get_label), acc.2 + 1))
      (ss1, statistics_index_offset)).1) split_statistics
  thresholds.foldl (fun ss1 _ =>
      (ss1.modifyLeft statistics_index_offset
          (fun st => st.finish_lazy_accumulation)).modifyRight statistics_index_offset
        (fun st => st.finish_lazy_accumulation))
    afterPass

/-- One iteration of the candidate loops of `compute_split_statistics` and
`compute_split_statistics_parallel`: feature index `i` is processed with
statistics index offset `i * thresholds.size()`. -/
def split_statistics_step (samples : List ImageSample)
    (cands : List (ImageFeature × List ImageThreshold))
    (ss : SplitStatistics) (i : ℕ) : SplitStatistics :=
  let p := cands.getD i ((⟨0, 0, 0, 0⟩ : ImageFeature), ([] : List ImageThreshold))
  compute_split_statistics_inner samples ss (i * p.2.length) p.1 p.2

/-- `ImageWeakLearner::compute_split_statistics`: statistics for all
flattened candidates are created up front, then each feature is processed in
order with offset `(it - cbegin) * thresholds.size()`. -/
def compute_split_statistics (samples : List ImageSample)
    (split_points : ImageSplitPointCandidates) : SplitStatistics :=
  (List.range split_points.size).foldl
    (split_statistics_step samples split_points.candidates)
    (SplitStatistics.create split_points.total_size)

/-- `ImageWeakLearner::compute_split_statistics_parallel` for
`num_of_threads ≥ 1` (for `num_of_threads ≤ 0` the source substitutes the
hardware-concurrency hint, outside the claims considered here): thread `t`
owns the contiguous feature range
`[⌊t·F/T⌋, ⌊(t+1)·F/T⌋)` and performs exactly the serial per-feature work on
it.  The threads are modelled as executing in thread-index order; this is
observationally faithful whenever distinct shards write disjoint statistics
slices. -/
def compute_split_statistics_parallel (samples : List ImageSample)
    (split_points : ImageSplitPointCandidates) (num_of_threads : ℕ) : SplitStatistics :=
  (List.range num_of_threads).foldl (fun ss t =>
      let b := t * split_points.size / num_of_threads
      let e := (t + 1) * split_points.size / num_of_threads
      (List.range' b (e - b)).foldl
        (split_statistics_step samples split_points.candidates) ss)
    (SplitStatistics.create split_points.total_size)

/-- The flattened statistics indices written by the processing of feature
`i`: the contiguous slice starting at the offset `i * thresholds.size()` used
by `_compute_split_statistics`, of length `thresholds.size()`. -/
def statistics_writes (cands : List (ImageFeature × List ImageThreshold)) (i : ℕ) : List ℕ :=
  List.range' (i * (cands.getD i ((⟨0, 0, 0, 0⟩ : ImageFeature), [])).2.length)
    (cands.getD i ((⟨0, 0, 0, 0⟩ : ImageFeature), [])).2.length

/-- Modelled from the spec, as the comparison point of claim C1: the
statistics obtained by calling `accumulate` immediately on each sample for
each flattened candidate (no lazy buffering, no finish pass). -/
def compute_split_statistics_spec (samples : List ImageSample)
    (split_points : ImageSplitPointCandidates) : SplitStatistics :=
  (List.range split_points.size).foldl (fun ss i =>
      let p := split_points.candidates.getD i ((⟨0, 0, 0, 0⟩ : ImageFeature), [])
      samples.foldl (fun ss1 sample =>
        let value : ℚ := (p.1.compute_pixel_difference sample : ℚ)
        (p.2.foldl (fun (acc : SplitStatistics × ℕ) th =>
            if th.left_direction value then
              (acc.1.modifyLeft acc.2 (fun st => st.accumulate sample.get_label), acc.2 + 1)
            else
              (acc.1.modifyRight acc.2 (fun st => st.accumulate sample.get_label), acc.2 + 1))
          (ss1, i * p.2.length)).1) ss)
    (SplitStatistics.create split_points.total_size)

/-- The sample at the single pixel of `trivialImage` (label 0, all feature
values 0). -/
def trivialSample : ImageSample :=
  ⟨trivialImage, 0, 0⟩

/-- One feature with the two binary-image thresholds −0.5 and +0.5. -/
def candsOneFeature : ImageSplitPointCandidates :=
  emptyCandidates.add_feature_and_thresholds ⟨0, 0, 0, 0⟩ [⟨mkRat (-1) 2⟩, ⟨mkRat 1 2⟩]

/-- A candidate set with unequal threshold counts: feature 0 carries two
thresholds, feature 1 carries one. -/
def candsUnequal : ImageSplitPointCandidates :=
  (emptyCandidates.add_feature_and_thresholds ⟨0, 0, 0, 0⟩
      [⟨0⟩, ⟨1⟩]).add_feature_and_thresholds ⟨0, 0, 0, 0⟩ [⟨0⟩]

/-- A candidate set with two features carrying one threshold each (equal
counts). -/
def candsEqual : ImageSplitPointCandidates :=
  (emptyCandidates.add_feature_and_thresholds ⟨0, 0, 0, 0⟩
      [⟨1⟩]).add_feature_and_thresholds ⟨0, 0, 1, 0⟩ [⟨0⟩]

/-- `std::round` (round half away from zero) on an exactly-represented scalar,
computed on the rational's components so that it evaluates by kernel
reduction; `roundHalfAway_eq_floor` below identifies it with `⌊q + 1/2⌋` for
nonnegative arguments, the only case exercised by the source (the rounded
quantities are fractions of counts). -/
def roundHalfAway (q : ℚ) : ℤ :=
  if 0 ≤ q.num then (2 * q.num + (q.den : ℤ)) / (2 * (q.den : ℤ))
  else -((2 * (-q.num) + (q.den : ℤ)) / (2 * (q.den : ℤ)))

/-- The scalar product `q * z` of a scalar and an integer-valued scalar
(the source's `fraction * width * height` promotes the integer operands to
`scalar_type`), computed on the rational's components so that it evaluates by
kernel reduction; `ratMulInt_eq` identifies it with the ring product. -/
def ratMulInt (q : ℚ) (z : ℤ) : ℚ :=
  mkRat (q.num * z) q.den

/-- The injected random engine.  `std::uniform_int_distribution(0, k)` and
`std::uniform_real_distribution(lo, hi)` each consume engine state; we model
the engine as two draw streams indexed by the number of draws consumed so
far.  An integer draw with bound `k` yields a value in `[0, k]`; a real draw
yields `lo + u·(hi − lo)` with `u ∈ [0, 1)`. -/
structure RandomEngine where
  intSeq : ℕ → ℕ
  realSeq : ℕ → ℚ

/-- One draw of `std::uniform_int_distribution(0, k)` at engine position
`p`. -/
def draw_uniform_int (e : RandomEngine) (p : ℕ) (k : ℕ) : ℕ :=
  e.intSeq p % (k + 1)

/-- One draw of `std::uniform_real_distribution(lo, hi)` at engine position
`p`: `lo + u·(hi − lo)` with `u = fract (realSeq p) ∈ [0, 1)`. -/
def draw_uniform_real (e : RandomEngine) (p : ℕ) (lo hi : ℚ) : ℚ :=
  lo + Int.fract (e.realSeq p) * (hi - lo)

/-- The `ait::ImageWeakLearnerParameters` fields used by the candidate
generator. -/
structure ImageWeakLearnerParameters where
  num_of_features : ℕ
  num_of_thresholds : ℕ
  feature_offset_x_range_low : ℤ
  feature_offset_x_range_high : ℤ
  feature_offset_y_range_low : ℤ
  feature_offset_y_range_high : ℤ
  threshold_range_low : ℚ
  threshold_range_high : ℚ
  adaptive_threshold_range : Bool
  binary_images : Bool

/-- `std::numeric_limits<scalar_type>::max()` for IEEE-754 double precision:
(2^53 − 1)·2^971. -/
def scalar_limit_max : ℚ :=
  mkRat 179769313486231570814527423731704356798070567525844996598917476803157260780028538760589558632766878171540458953514382464234321326889464182768467546703537516986049910576551282076245490090389328944075868508455133942304583236903222948165808559332123348274797826204144723168738177180919299881250404026184124858368 1

/-- `std::numeric_limits<scalar_type>::min()` for IEEE-754 double precision:
the smallest positive normal value 2^(−1022).  Note this is a (tiny)
positive number, not the most negative representable value. -/
def scalar_limit_min_positive : ℚ :=
  mkRat 1 44942328371557897693232629769725618340449424473557664318357520289433168951375240783177119330601884005280028469967848339414697442203604155623211857659868531094441973356216371319075554900311523529863270738021251442209537670585615720368478277635206809290837627671146574559986811484619929076208839082406056034304

/-- `ImageWeakLearner::compute_adaptive_threshold_range`: one pass over the
sample range tracks the running minimum (initialized to
`numeric_limits::max()`) and running maximum (initialized to
`numeric_limits::min()`, the smallest positive value) of the feature's pixel
difference; if afterwards `min ≥ max` both bounds collapse to 0. -/
def compute_adaptive_threshold_range (samples : List ImageSample)
    (feature : ImageFeature) : ℚ × ℚ :=
  let pass := samples.foldl (fun (mm : ℚ × ℚ) sample =>
      let value : ℚ := (feature.compute_pixel_difference sample : ℚ)
      (if value < mm.1 then value else mm.1, if value > mm.2 then value else mm.2))
    (scalar_limit_max, scalar_limit_min_positive)
  if pass.1 ≥ pass.2 then (0, 0) else pass

/-- The discrete offset pool of `sample_split_points`: for each magnitude in
`[lo, hi]` both `−offset` and `+offset` are pushed (so ±0 appears twice). -/
def offsets_pool (lo hi : ℤ) : List ℤ :=
  (List.range (hi + 1 - lo).toNat).flatMap (fun k => [-(lo + k), lo + k])

/-- The four offset draws at the head of one iteration of the feature loop
of `ImageWeakLearner::sample_split_points` (engine positions p..p+3, in the
order x1, y1, x2, y2). -/
def sample_one_feature_offsets (params : ImageWeakLearnerParameters)
    (e : RandomEngine) (p : ℕ) : ImageFeature :=
  let offsets_x := offsets_pool params.feature_offset_x_range_low params.feature_offset_x_range_high
  let offsets_y := offsets_pool params.feature_offset_y_range_low params.feature_offset_y_range_high
  ⟨offsets_x.getD (draw_uniform_int e p (offsets_x.length - 1)) 0,
   offsets_y.getD (draw_uniform_int e (p + 1) (offsets_y.length - 1)) 0,
   offsets_x.getD (draw_uniform_int e (p + 2) (offsets_x.length - 1)) 0,
   offsets_y.getD (draw_uniform_int e (p + 3) (offsets_y.length - 1)) 0⟩

/-- The threshold emission of one iteration of the feature loop (returning
the thresholds and the engine position after the iteration): the two fixed
binary-image thresholds −0.5 and +0.5, or `num_of_thresholds` uniform real
draws from the adaptive range (the source's `threshold_range_low/high`
locals are re-assigned from `compute_adaptive_threshold_range` before every
use when `adaptive_threshold_range` is set) or from the fixed parameter
range. -/
def sample_one_feature_thresholds (params : ImageWeakLearnerParameters)
    (samples : List ImageSample) (e : RandomEngine) (p : ℕ)
    (feature : ImageFeature) : List ImageThreshold × ℕ :=
  if params.binary_images then
    ([⟨mkRat (-1) 2⟩, ⟨mkRat 1 2⟩], p + 4)
  else
    let range :=
      if params.adaptive_threshold_range then
        compute_adaptive_threshold_range samples feature
      else
        (params.threshold_range_low, params.threshold_range_high)
    (List.range params.num_of_thresholds).foldl
      (fun (acc : List ImageThreshold × ℕ) _ =>
        (acc.1 ++ [⟨draw_uniform_real e acc.2 range.1 range.2⟩], acc.2 + 1))
      ([], p + 4)

/-- One iteration of the feature loop of
`ImageWeakLearner::sample_split_points`: draw the four offsets (consuming
four integer draws), emit the thresholds, and append the pair to the
candidate set. -/
def sample_one_feature (params : ImageWeakLearnerParameters)
    (samples : List ImageSample) (e : RandomEngine)
    (state : ImageSplitPointCandidates × ℕ) : ImageSplitPointCandidates × ℕ :=
  let feature := sample_one_feature_offsets params e state.2
  let ths_p := sample_one_feature_thresholds params samples e state.2 feature
  (state.1.add_feature_and_thresholds feature ths_p.1, ths_p.2)

/-- `ImageWeakLearner::sample_split_points`: `num_of_features` iterations of
the feature loop, starting from the empty candidate set, threading the
engine position. -/
def sample_split_points (params : ImageWeakLearnerParameters)
    (samples : List ImageSample) (e : RandomEngine) (p0 : ℕ) :
    ImageSplitPointCandidates × ℕ :=
  (List.range params.num_of_features).foldl
    (fun st _ => sample_one_feature params samples e st) (emptyCandidates, p0)

/-- An engine whose integer draws are all 0 and whose real draws are all
u = 0. -/
def engineZero : RandomEngine :=
  ⟨fun _ => 0, fun _ => 0⟩

/-- An engine whose integer draws are all 0 and whose real draws are all
u = 1/2. -/
def engineHalf : RandomEngine :=
  ⟨fun _ => 0, fun _ => mkRat 1 2⟩

/-- C5 concerns `sample_split_points` too: with `binary_images` off,
`adaptive_threshold_range` on and one threshold per feature, the candidate
generated for the all-zero sample carries exactly the threshold drawn from
the degenerate range `[0, 2^(−1022)]` — the threshold shown strictly
positive in `claim_C5_bug`. -/
def paramsAdaptive : ImageWeakLearnerParameters :=
  ⟨1, 1, 0, 0, 0, 0, 0, 0, true, false⟩

/-- The number of thresholds `sample_split_points` gives every feature:
exactly 2 when `binary_images` is set, else `num_of_thresholds`. -/
def threshold_count (params : ImageWeakLearnerParameters) : ℕ :=
  if params.binary_images then 2 else params.num_of_thresholds

/-- Modelled from the spec: the tree node class (`node.h`) is not under
src/.  Per §3 of the spec a node holds a leaf flag and an optional
SplitPoint (only meaningful for non-leaves; the statistics summary is
irrelevant to the claims treated here); `set_leaf` and `set_split_point`
are plain setters, and the tree stores its nodes in heap order with the
children of node `i` at `2i+1` and `2i+2`. -/
structure TreeNode where
  is_leaf : Bool
  split_point : Option ImageSplitPoint

/-- `node_it->set_split_point(...)` at heap index `i`. -/
def set_split_point (tree : List TreeNode) (i : ℕ) (sp : ImageSplitPoint) : List TreeNode :=
  listModify tree i (fun n => { n with split_point := some sp })

/-- `node_it.set_leaf(b)` at heap index `i`. -/
def set_leaf (tree : List TreeNode) (i : ℕ) (b : Bool) : List TreeNode :=
  listModify tree i (fun n => { n with is_leaf := b })

/-- The `SplitInformation` record of `LevelForestTrainer`. -/
structure SplitInformation where
  information_gain : ℚ
  total_num_of_samples : ℕ
  left_num_of_samples : ℕ
  right_num_of_samples : ℕ

/-- The per-node body of the best-split loop of
`LevelForestTrainer::train_tree_level_part`: store the split point
(unconditionally, before anything else), pre-set both children's leaf flag
to true, then mark the node as a leaf when
`gain < minimum_information_gain` or
`total_num_of_samples < minimum_num_of_samples`, and as internal
otherwise. -/
def apply_best_split (minimum_information_gain : ℚ) (minimum_num_of_samples : ℕ)
    (tree : List TreeNode) (node_index : ℕ)
    (best : ImageSplitPoint × SplitInformation) : List TreeNode :=
  if best.2.information_gain < minimum_information_gain
      ∨ best.2.total_num_of_samples < minimum_num_of_samples then
    set_leaf (set_leaf (set_leaf (set_split_point tree node_index best.1)
      (2 * node_index + 1) true) (2 * node_index + 2) true) node_index true
  else
    set_leaf (set_leaf (set_leaf (set_split_point tree node_index best.1)
      (2 * node_index + 1) true) (2 * node_index + 2) true) node_index false

/-- An all-leaf depth-1 tree (3 heap slots). -/
def treeThree : List TreeNode :=
  List.replicate 3 ⟨true, none⟩

/-- A recognizable split point. -/
def spMarked : ImageSplitPoint :=
  ⟨1, 2, 3, 4, 0⟩

/-- Split information with gain 0 over 5 samples. -/
def infoZeroGain : SplitInformation :=
  ⟨0, 5, 2, 3⟩

/-- The `ait::ImageSampleParameters` fields used by the sample provider. -/
structure ImageSampleParameters where
  bagging_fraction : ℚ
  samples_per_image_fraction : ℚ
  background_label : ℤ

/-- The double nested loop of `load_samples_from_image` that collects every
pixel whose label is not the background label, in x-major, y-minor order. -/
def collect_non_background (image : Image) (background_label : ℤ) : List ImageSample :=
  (List.range image.width.toNat).flatMap (fun x =>
    ((List.range image.height.toNat).map
        (fun y => (⟨image, (x : ℤ), (y : ℤ)⟩ : ImageSample))).filter
      (fun s => decide (s.get_label ≠ background_label)))

/-- `std::swap` of two list positions. -/
def listSwap {α : Type} (l : List α) (i j : ℕ) : List α :=
  match l[i]?, l[j]? with
  | some a, some b => (l.set i b).set j a
  | _, _ => l

/-- One iteration `i` of the subsampling loop of `load_samples_from_image`:
draw a uniform index in `[0, size − 1 − i]`, `std::swap` that element with
`non_background_samples.back()` — the FIXED last position `size − 1`, since
the vector never shrinks — and append the back element to the output
(`push_back(std::move(...))` copies for this element type and leaves the
vector's contents intact). -/
def subsample_step (e : RandomEngine)
    (st : List ImageSample × List ImageSample × ℕ) (i : ℕ) :
    List ImageSample × List ImageSample × ℕ :=
  let v := st.1
  let index := draw_uniform_int e st.2.2 (v.length - 1 - i)
  let swapped := listSwap v index (v.length - 1)
  (swapped, st.2.1 ++ [swapped.getD (v.length - 1) trivialSample], st.2.2 + 1)

/-- The body of `ImageSampleProvider::load_samples_from_image` once the
image is in hand: when `samples_per_image_fraction < 1`, round the fraction
of the image AREA (not of the non-background count), clamp by the number of
non-background pixels, and run that many subsampling iterations; otherwise
keep every non-background pixel.  Returns the drawn samples (appended to the
provider's sample list by the caller) and the advanced engine position. -/
def load_samples_from_image_core (params : ImageSampleParameters) (image : Image)
    (e : RandomEngine) (p0 : ℕ) : List ImageSample × ℕ :=
  if params.samples_per_image_fraction < 1 then
    let num_of_samples_per_image :=
      roundHalfAway (ratMulInt params.samples_per_image_fraction
        (image.width * image.height))
    let non_background_samples := collect_non_background image params.background_label
    let num_of_samples := min num_of_samples_per_image.toNat non_background_samples.length
    let final := (List.range num_of_samples).foldl (subsample_step e)
      (non_background_samples, [], p0)
    (final.2.1, final.2.2)
  else
    (collect_non_background image params.background_label, p0)

/-- `ImageSampleProvider::compute_batch_start_index`: the source divides in
`double` and truncates; for the magnitudes involved the truncated quotient
is the integer floor quotient. -/
def compute_batch_start_index (batch_index num_of_batches batch_size : ℕ) : ℕ :=
  batch_index * batch_size / num_of_batches

/-- `ImageSampleProvider::compute_sample_bag_batches`: draw
`round(bagging_fraction · N)` image indices uniformly from `[0, N)` (with
replacement), `std::sort` them (on totally ordered keys the sorted
rearrangement is unique, modelled by insertion sort), and cut the sorted
list into `num_of_batches` contiguous slices at the batch start indices. -/
def compute_sample_bag_batches (params : ImageSampleParameters)
    (num_of_images : ℕ) (num_of_batches : ℕ) (e : RandomEngine) (p0 : ℕ) :
    List (List ℕ) × ℕ :=
  let num_of_images_per_bag :=
    (roundHalfAway (ratMulInt params.bagging_fraction num_of_images)).toNat
  let image_indices := (List.range num_of_images_per_bag).map
    (fun i => draw_uniform_int e (p0 + i) (num_of_images - 1))
  let sorted_indices := List.insertionSort (· ≤ ·) image_indices
  ((List.range num_of_batches).map (fun i =>
      (sorted_indices.drop
          (compute_batch_start_index i num_of_batches num_of_images_per_bag)).take
        (compute_batch_start_index (i + 1) num_of_batches num_of_images_per_bag
          - compute_batch_start_index i num_of_batches num_of_images_per_bag)),
    p0 + num_of_images_per_bag)

/-- The mutable state of an `ImageSampleProvider` backed by a
`MemoryImageProvider`: the in-memory image map, the accumulated sample list
and — as instrumentation for counting — the log of indices passed to
`image_provider_->get_image`. -/
structure SampleProviderState where
  image_map : List (ℕ × Image)
  samples : List ImageSample
  provider_call_log : List ℕ

/-- `std::map::find` on the embedded image map. -/
def mapFind (m : List (ℕ × Image)) (k : ℕ) : Option Image :=
  (m.find? (fun q => q.1 == k)).map (fun q => q.2)

/-- The two-argument `ensure_image_is_loaded(image_index, old_image_map)`:
if the image is not in the live map, re-insert it from the previous batch's
map when cached there, and otherwise load it through the provider (logged;
the indices used stay within the provider's range in every run considered
here, so the in-range branch of `get_image` is taken). -/
def ensure_image_is_loaded_from_old (images : List Image)
    (old_map : List (ℕ × Image)) (st : SampleProviderState) (image_index : ℕ) :
    SampleProviderState :=
  match mapFind st.image_map image_index with
  | some _ => st
  | none =>
    match mapFind old_map image_index with
    | some image =>
      { st with image_map := st.image_map ++ [(image_index, image)] }
    | none =>
      { st with
          image_map := st.image_map ++ [(image_index, images.getD image_index trivialImage)],
          provider_call_log := st.provider_call_log ++ [image_index] }

/-- The one-argument `ensure_image_is_loaded(image_index)`: load through the
provider when the image is not in the live map. -/
def ensure_image_is_loaded (images : List Image) (st : SampleProviderState)
    (image_index : ℕ) : SampleProviderState :=
  match mapFind st.image_map image_index with
  | some _ => st
  | none =>
    { st with
        image_map := st.image_map ++ [(image_index, images.getD image_index trivialImage)],
        provider_call_log := st.provider_call_log ++ [image_index] }

/-- `ImageSampleProvider::load_samples_from_image`: ensure the image is
loaded, look it up in the live map, and append the drawn samples to the
provider's sample list. -/
def load_samples_from_image (params : ImageSampleParameters) (images : List Image)
    (e : RandomEngine) (st : SampleProviderState) (p : ℕ) (image_index : ℕ) :
    SampleProviderState × ℕ :=
  let st1 := ensure_image_is_loaded images st image_index
  let image := (mapFind st1.image_map image_index).getD trivialImage
  let drawn := load_samples_from_image_core params image e p
  ({ st1 with samples := st1.samples ++ drawn.1 }, drawn.2)

/-- `ImageSampleProvider::load_sample_batch`: clear the sample list, move
the live image map aside as the old map, clear the live map, and then for
each image index of the batch in order ensure the image is loaded (old map
consulted first) and draw its samples. -/
def load_sample_batch (params : ImageSampleParameters) (images : List Image)
    (e : RandomEngine) (batch : List ℕ) (st0 : SampleProviderState) (p0 : ℕ) :
    SampleProviderState × ℕ :=
  let old_map := st0.image_map
  batch.foldl (fun (acc : SampleProviderState × ℕ) image_index =>
      let st1 := ensure_image_is_loaded_from_old images old_map acc.1 image_index
      load_samples_from_image params images e st1 acc.2 image_index)
    ({ st0 with samples := [], image_map := [] }, p0)

/-- A 3×1 all-zero image: three non-background pixels (background label
255). -/
def imageThreePixels : Image :=
  ⟨3, 1, fun _ _ => 0, fun _ _ => 0⟩

/-- Sampling parameters with `samples_per_image_fraction = 0.99` (< 1, so
the subsampling branch runs) and background label 255. -/
def paramsSubsample : ImageSampleParameters :=
  ⟨1, mkRat 99 100, 255⟩

/-- A 2×1 all-zero image: two non-background pixels (background label
255). -/
def imageTwoPixels : Image :=
  ⟨2, 1, fun _ _ => 0, fun _ _ => 0⟩

/-- The invariant of the batch-loading loop: the provider-call log has no
repeats, and every logged index is present in the live image map. -/
def ProviderInv (st : SampleProviderState) : Prop :=
  st.provider_call_log.Nodup ∧
  ∀ idx ∈ st.provider_call_log, (mapFind st.image_map idx).isSome = true

/-- Reduction of `wrapInt16` on values already inside the `int16_t` range. -/
theorem wrapInt16_of_range (z : ℤ) (h1 : -(2 ^ 15) ≤ z) (h2 : z < 2 ^ 15) :
    wrapInt16 z = z := by
  unfold wrapInt16
  have h3 : (0 : ℤ) ≤ z + 2 ^ 15 := by linarith
  have h4 : z + 2 ^ 15 < 2 ^ 16 := by norm_num; linarith [h2]
  rw [Int.emod_eq_of_lt h3 h4]
  ring

/-- C6, counterexample: at the sample (0,0) of `extremeImage` with split
point offsets (0,0,1,0) and threshold 0, the pixel difference is
32767 − (−32768) = 65535, which is not < 0, yet `evaluate` returns LEFT:
the difference is narrowed into `int16_t` (becoming −1) before the
comparison, so the claimed equivalence with the untruncated difference
fails. -/
theorem claim_C6_counterexample :
    ImageSplitPoint.evaluate extremeSplitPoint extremeSample = Direction.LEFT ∧
    ¬ ((ImageSplitPoint.compute_pixel_difference extremeSplitPoint extremeSample : ℚ) <
        extremeSplitPoint.threshold) := by
  constructor
  · decide
  · decide

/-- C6, amended: `evaluate` returns LEFT iff the pixel difference, first
narrowed into the `int16_t` range (two's-complement wrap), is strictly below
the threshold, and RIGHT otherwise; whenever the difference already lies in
the `int16_t` range this coincides with the claimed strict comparison of the
untruncated difference `P(x+ox1,y+oy1) − P(x+ox2,y+oy2) < t`; and any pixel
read outside `[0, width) × [0, height)` yields 0. -/
theorem claim_C6_amended :
    ∀ (sp : ImageSplitPoint) (s : ImageSample),
      (sp.evaluate s = Direction.LEFT ↔
        (wrapInt16 (sp.compute_pixel_difference s) : ℚ) < sp.threshold) ∧
      (sp.evaluate s = Direction.RIGHT ↔
        ¬ (wrapInt16 (sp.compute_pixel_difference s) : ℚ) < sp.threshold) ∧
      (-(2 ^ 15) ≤ sp.compute_pixel_difference s → sp.compute_pixel_difference s < 2 ^ 15 →
        (sp.evaluate s = Direction.LEFT ↔ (sp.compute_pixel_difference s : ℚ) < sp.threshold)) ∧
      (∀ ox oy, s.x + ox < 0 ∨ s.x + ox ≥ s.image.width ∨
          s.y + oy < 0 ∨ s.y + oy ≥ s.image.height →
        compute_pixel_value s ox oy = 0) := by
  intro sp s
  refine ⟨?_, ?_, ?_, ?_⟩
  · unfold ImageSplitPoint.evaluate
    split
    · simp_all
    · simp_all
  · unfold ImageSplitPoint.evaluate
    split
    · simp_all
    · simp_all
  · intro h1 h2
    unfold ImageSplitPoint.evaluate
    rw [wrapInt16_of_range _ h1 h2]
    split
    · simp_all
    · simp_all
  · intro ox oy h
    unfold compute_pixel_value
    rw [if_pos h]

/-- C6, witness for the amended theorem at a concrete in-range input: the
zero-difference sample routes right at threshold 0... actually at threshold 1
it routes left, and an out-of-range read yields 0. -/
theorem claim_C6_witness :
    (ImageSplitPoint.evaluate ⟨0, 0, 0, 0, 1⟩ ⟨trivialImage, 0, 0⟩ = Direction.LEFT ↔
      ((ImageSplitPoint.compute_pixel_difference ⟨0, 0, 0, 0, 1⟩ ⟨trivialImage, 0, 0⟩ : ℚ) < 1)) ∧
    compute_pixel_value ⟨trivialImage, 0, 0⟩ 5 0 = 0 := by
  have h := claim_C6_amended ⟨0, 0, 0, 0, 1⟩ ⟨trivialImage, 0, 0⟩
  exact ⟨h.2.2.1 (by decide) (by decide), h.2.2.2 5 0 (by right; left; decide)⟩

/-- If every flattened candidate index is below the requested one, the
`get_split_point` loop runs off the end of the candidate list. -/
theorem get_split_point_aux_eq_none
    (cs : List (ImageFeature × List ImageThreshold)) (i : ℕ)
    (h : flatLength cs ≤ i) : get_split_point_aux cs i = none := by
  induction cs generalizing i with
  | nil => rfl
  | cons p rest ih =>
    obtain ⟨f, ths⟩ := p
    have hflat : flatLength ((f, ths) :: rest) = ths.length + flatLength rest := by
      simp [flatLength]
    rw [hflat] at h
    have hlt : ¬ i < ths.length := by omega
    rw [get_split_point_aux, dif_neg hlt]
    exact ih (i - ths.length) (by omega)

/-- If the requested flattened index is within the candidate list, the
`get_split_point` loop finds a split point. -/
theorem get_split_point_aux_eq_some
    (cs : List (ImageFeature × List ImageThreshold)) (i : ℕ)
    (h : i < flatLength cs) : ∃ sp, get_split_point_aux cs i = some sp := by
  induction cs generalizing i with
  | nil => simp [flatLength] at h
  | cons p rest ih =>
    obtain ⟨f, ths⟩ := p
    have hflat : flatLength ((f, ths) :: rest) = ths.length + flatLength rest := by
      simp [flatLength]
    rw [hflat] at h
    by_cases hlt : i < ths.length
    · exact ⟨mkImageSplitPoint f (ths.get ⟨i, hlt⟩), by rw [get_split_point_aux, dif_pos hlt]⟩
    · obtain ⟨sp, hsp⟩ := ih (i - ths.length) (by omega)
      exact ⟨sp, by rw [get_split_point_aux, dif_neg hlt]; exact hsp⟩

/-- C8, counterexample: requesting image index 1 from a one-image
`MemoryImageProvider` hits a disabled `assert` followed by unchecked
`std::vector` access: no error of any kind is surfaced to the caller,
contradicting the claim that such a request fails with a NotFound error. -/
theorem claim_C8_counterexample :
    memory_provider_get_image [trivialImage] 1 = CallOutcome.unchecked ∧
    (∀ e : CppError, memory_provider_get_image [trivialImage] 1 ≠ CallOutcome.thrown e) := by
  constructor
  · rfl
  · intro e h
    rw [show memory_provider_get_image [trivialImage] 1 = CallOutcome.unchecked from rfl] at h
    exact CallOutcome.noConfusion h

/-- C8, amended: `get_split_point` with a candidate index outside
`[0, total flattened size)` throws `std::invalid_argument`, surfaced to the
caller (the trainer does not catch it, so per-tree training does not continue
past it), and an in-range index returns a split point; `get_image` with an
out-of-range image index, by contrast, is guarded only by a debug `assert`
followed by unchecked vector access and surfaces no error, while an in-range
index returns the image. -/
theorem claim_C8_amended :
    (∀ (c : ImageSplitPointCandidates) (i : ℕ), flatLength c.candidates ≤ i →
      c.get_split_point i = CallOutcome.thrown CppError.invalid_argument) ∧
    (∀ (c : ImageSplitPointCandidates) (i : ℕ), i < flatLength c.candidates →
      ∃ sp, c.get_split_point i = CallOutcome.ok sp) ∧
    (∀ (images : List Image) (i : ℕ), images.length ≤ i →
      memory_provider_get_image images i = CallOutcome.unchecked) ∧
    (∀ (images : List Image) (i : ℕ), i < images.length →
      ∃ img, memory_provider_get_image images i = CallOutcome.ok img) := by
  refine ⟨?_, ?_, ?_, ?_⟩
  · intro c i h
    unfold ImageSplitPointCandidates.get_split_point
    rw [get_split_point_aux_eq_none c.candidates i h]
  · intro c i h
    obtain ⟨sp, hsp⟩ := get_split_point_aux_eq_some c.candidates i h
    exact ⟨sp, by unfold ImageSplitPointCandidates.get_split_point; rw [hsp]⟩
  · intro images i h
    unfold memory_provider_get_image
    rw [dif_neg (by omega)]
  · intro images i h
    exact ⟨images.get ⟨i, h⟩, by unfold memory_provider_get_image; rw [dif_pos h]⟩

/-- C8, witness for the amended theorem at concrete inputs. -/
theorem claim_C8_witness :
    (emptyCandidates.get_split_point 0 = CallOutcome.thrown CppError.invalid_argument) ∧
    memory_provider_get_image [trivialImage] 2 = CallOutcome.unchecked := by
  constructor
  · exact claim_C8_amended.1 emptyCandidates 0 (by simp [emptyCandidates, flatLength])
  · exact claim_C8_amended.2.2.1 [trivialImage] 2 (by simp)

/-- C1, failing input: one sample with feature value 0 and one feature with
thresholds −0.5 and +0.5.  The sample is lazily routed right at flattened
index 0 and left at flattened index 1, but the finish loop (whose running
index is re-declared inside the loop body) only ever finishes index 0: the
lazy accumulation at index 1 is never flushed, so `left[1]` reports 0
samples where immediate accumulation reports 1, and the produced
`SplitStatistics` differs from the immediate-accumulation statistics the
claim promises. -/
theorem claim_C1_bug :
    ((compute_split_statistics [trivialSample] candsOneFeature).left.getD 1
        LazyHistogramStatistics.empty).pending = [0] ∧
    ((compute_split_statistics [trivialSample] candsOneFeature).left.getD 1
        LazyHistogramStatistics.empty).num_of_samples = 0 ∧
    ((compute_split_statistics_spec [trivialSample] candsOneFeature).left.getD 1
        LazyHistogramStatistics.empty).num_of_samples = 1 ∧
    compute_split_statistics [trivialSample] candsOneFeature ≠
      compute_split_statistics_spec [trivialSample] candsOneFeature := by
  refine ⟨by decide, by decide, by decide, by decide⟩

/-- Folding shard-by-shard is folding over the concatenation of the
shards. -/
theorem foldl_over_lists {α β : Type} (f : α → β → α) (init : α) (ls : List (List β)) :
    ls.foldl (fun a l => l.foldl f a) init = ls.flatten.foldl f init := by
  induction ls generalizing init with
  | nil => rfl
  | cons l ls ih => simp only [List.foldl_cons, List.flatten_cons, List.foldl_append, ih]

/-- Concatenating the half-open ranges `[c t, c (t+1))` for `t < T` of a
monotone cut function yields the single range `[c 0, c T)`. -/
theorem join_range'_slices (c : ℕ → ℕ) (mono : ∀ t, c t ≤ c (t + 1)) (T : ℕ) :
    ((List.range T).map (fun t => List.range' (c t) (c (t + 1) - c t))).flatten
      = List.range' (c 0) (c T - c 0) := by
  induction T with
  | zero => simp
  | succ T ih =>
    rw [List.range_succ, List.map_append, List.flatten_append, ih]
    simp only [List.map_cons, List.map_nil, List.flatten_cons, List.flatten_nil, List.append_nil]
    have h0T : c 0 ≤ c T := by
      clear ih
      induction T with
      | zero => exact le_refl _
      | succ T ih2 => exact le_trans ih2 (mono T)
    have hT : c T ≤ c (T + 1) := mono T
    have key := List.range'_append (c 0) (c T - c 0) (c (T + 1) - c T) 1
    have e1 : c 0 + 1 * (c T - c 0) = c T := by omega
    have e2 : c (T + 1) - c T + (c T - c 0) = c (T + 1) - c 0 := by omega
    rw [e1, e2] at key
    exact key

/-- C3, counterexample: for the candidate set `candsUnequal` and 2 threads,
the shards are the feature ranges [0,1) and [1,2) (features 0 and 1 in
separate shards), yet the statistics slice written for feature 0 is
{0, 1} and the slice written for feature 1 is {1}: distinct shards write
the same flattened index 1, so the disjoint-slice conjunct of the claim
fails for candidate sets whose features carry unequal threshold counts. -/
theorem claim_C3_counterexample :
    (0 * candsUnequal.size / 2 = 0 ∧ 1 * candsUnequal.size / 2 = 1 ∧
      2 * candsUnequal.size / 2 = 2) ∧
    ((1 : ℕ) ∈ statistics_writes candsUnequal.candidates 0) ∧
    ((1 : ℕ) ∈ statistics_writes candsUnequal.candidates 1) := by
  refine ⟨by decide, by decide, by decide⟩

/-- C3, amended: for every sample list, candidate set and thread count
T ≥ 1, `compute_split_statistics_parallel` (threads modelled in thread-index
order) returns the same `SplitStatistics` as the serial
`compute_split_statistics`; the shard ranges `[⌊t·F/T⌋, ⌊(t+1)·F/T⌋)`
concatenate to exactly the feature index list; and — provided every feature
carries the same number of thresholds, as every candidate set produced by
`sample_split_points` does — distinct features (hence distinct shards) write
disjoint slices of the statistics arrays. -/
theorem claim_C3_amended :
    ∀ (samples : List ImageSample) (sp : ImageSplitPointCandidates) (T : ℕ), 1 ≤ T →
      (compute_split_statistics_parallel samples sp T = compute_split_statistics samples sp) ∧
      (((List.range T).map (fun t =>
          List.range' (t * sp.size / T) ((t + 1) * sp.size / T - t * sp.size / T))).flatten
        = List.range sp.size) ∧
      (∀ c : ℕ, (∀ p ∈ sp.candidates, p.2.length = c) →
        ∀ i j : ℕ, i < sp.size → j < sp.size → i ≠ j →
          ∀ k, k ∈ statistics_writes sp.candidates i →
            k ∈ statistics_writes sp.candidates j → False) := by
  intro samples sp T hT
  have hT' : 0 < T := hT
  have mono : ∀ t, t * sp.size / T ≤ (t + 1) * sp.size / T := fun t =>
    Nat.div_le_div_right (Nat.mul_le_mul_right sp.size (Nat.le_succ t))
  have hpart :
      ((List.range T).map (fun t =>
          List.range' (t * sp.size / T) ((t + 1) * sp.size / T - t * sp.size / T))).flatten
        = List.range sp.size := by
    have h := join_range'_slices (fun t => t * sp.size / T) mono T
    simp only [Nat.zero_mul, Nat.zero_div, Nat.sub_zero] at h
    rw [h, Nat.mul_div_cancel_left sp.size hT', List.range_eq_range']
  refine ⟨?_, hpart, ?_⟩
  · unfold compute_split_statistics_parallel compute_split_statistics
    rw [show
        (List.range T).foldl (fun ss t =>
          (List.range' (t * sp.size / T) ((t + 1) * sp.size / T - t * sp.size / T)).foldl
            (split_statistics_step samples sp.candidates) ss)
          (SplitStatistics.create sp.total_size)
        = ((List.range T).map (fun t =>
            List.range' (t * sp.size / T) ((t + 1) * sp.size / T - t * sp.size / T))).foldl
            (fun ss l => l.foldl (split_statistics_step samples sp.candidates) ss)
            (SplitStatistics.create sp.total_size)
      from (List.foldl_map _ _ _ _).symm]
    rw [foldl_over_lists, hpart]
  · intro c hc i j hi hj hne k hki hkj
    have hgett : ∀ m : ℕ, m < sp.size →
        (sp.candidates.getD m ((⟨0, 0, 0, 0⟩ : ImageFeature), [])).2.length = c := by
      intro m hm
      rw [List.getD_eq_getElem _ _ hm]
      exact hc _ (List.getElem_mem hm)
    rw [statistics_writes, hgett i hi, List.mem_range'_1] at hki
    rw [statistics_writes, hgett j hj, List.mem_range'_1] at hkj
    rcases lt_or_gt_of_ne hne with h | h
    · have hmul : (i + 1) * c ≤ j * c := Nat.mul_le_mul_right c (Nat.succ_le_of_lt h)
      have hk1 : k < (i + 1) * c := by
        have := hki.2
        calc k < i * c + c := this
          _ = (i + 1) * c := by ring
      exact Nat.lt_irrefl k (lt_of_lt_of_le hk1 (le_trans hmul hkj.1))
    · have hmul : (j + 1) * c ≤ i * c := Nat.mul_le_mul_right c (Nat.succ_le_of_lt h)
      have hk1 : k < (j + 1) * c := by
        have := hkj.2
        calc k < j * c + c := this
          _ = (j + 1) * c := by ring
      exact Nat.lt_irrefl k (lt_of_lt_of_le hk1 (le_trans hmul hki.1))

/-- C3, witness for the amended theorem at a concrete input: two features
with one threshold each, one sample, two threads. -/
theorem claim_C3_witness :
    (compute_split_statistics_parallel [trivialSample] candsEqual 2 =
      compute_split_statistics [trivialSample] candsEqual) ∧
    (((List.range 2).map (fun t =>
        List.range' (t * candsEqual.size / 2)
          ((t + 1) * candsEqual.size / 2 - t * candsEqual.size / 2))).flatten
      = List.range candsEqual.size) ∧
    ((0 : ℕ) ∈ statistics_writes candsEqual.candidates 0 →
      (0 : ℕ) ∈ statistics_writes candsEqual.candidates 1 → False) := by
  have h := claim_C3_amended [trivialSample] candsEqual 2 (by decide)
  exact ⟨h.1, h.2.1,
    h.2.2 1 (by decide) 0 1 (by decide) (by decide) (by decide) 0⟩

/-- For a nonnegative argument, `roundHalfAway` is `⌊q + 1/2⌋`, the value of
`std::round` there. -/
theorem roundHalfAway_eq_floor (q : ℚ) (h : 0 ≤ q) : roundHalfAway q = ⌊q + 1 / 2⌋ := by
  have hnum : 0 ≤ q.num := Rat.num_nonneg.mpr h
  have hden : (q.den : ℚ) ≠ 0 := Nat.cast_ne_zero.mpr q.den_nz
  have hval : q + 1 / 2 = ((2 * q.num + (q.den : ℤ) : ℤ) : ℚ) / ((2 * q.den : ℕ) : ℚ) := by
    conv_lhs => rw [← Rat.num_div_den q]
    push_cast
    field_simp
    ring
  rw [roundHalfAway, if_pos hnum, hval, Rat.floor_intCast_div_natCast]
  push_cast
  rfl

/-- `ratMulInt` is multiplication. -/
theorem ratMulInt_eq (q : ℚ) (z : ℤ) : ratMulInt q z = q * (z : ℚ) := by
  have hden : (q.den : ℚ) ≠ 0 := Nat.cast_ne_zero.mpr q.den_nz
  rw [ratMulInt, Rat.mkRat_eq_div]
  conv_rhs => rw [← Rat.num_div_den q]
  push_cast
  field_simp

/-- The numeral defining `scalar_limit_max` is (2^53 − 1)·2^971. -/
theorem scalar_limit_max_eq : scalar_limit_max = ((2 : ℚ) ^ 53 - 1) * 2 ^ 971 := by
  rw [scalar_limit_max, Rat.mkRat_eq_div]
  norm_num

/-- The numeral defining `scalar_limit_min_positive` is 2^(−1022). -/
theorem scalar_limit_min_positive_eq : scalar_limit_min_positive = 1 / (2 : ℚ) ^ 1022 := by
  rw [scalar_limit_min_positive, Rat.mkRat_eq_div]
  norm_num

set_option maxRecDepth 16384 in
/-- C5, failing input: a single sample whose feature value is 0 (every
sample yields the same value).  The claim says the range collapses to
`[0, 0]` and every generated threshold is 0; but the source initializes the
running maximum to `numeric_limits<scalar_type>::min()` — the smallest
POSITIVE value, not the lowest — so the value 0 never overtakes it: the
computed range is `[0, 2^(−1022)] ≠ [0, 0]`, the collapse test `min ≥ max`
fails, and a threshold drawn from that range (here with u = 1/2) is strictly
positive rather than 0. -/
theorem claim_C5_bug :
    compute_adaptive_threshold_range [trivialSample] ⟨0, 0, 0, 0⟩ =
      (0, scalar_limit_min_positive) ∧
    scalar_limit_min_positive ≠ 0 ∧
    0 < draw_uniform_real engineHalf 0 0 scalar_limit_min_positive := by
  refine ⟨by decide, by decide, ?_⟩
  have hhalf : (engineHalf.realSeq 0 : ℚ) = 1 / 2 := by
    show (mkRat 1 2 : ℚ) = 1 / 2
    rw [Rat.mkRat_eq_div]
    norm_num
  have heps : scalar_limit_min_positive = 1 / 2 ^ 1022 := by
    rw [scalar_limit_min_positive, Rat.mkRat_eq_div]
    norm_num
  rw [draw_uniform_real, hhalf, heps]
  have hfract : Int.fract ((1 : ℚ) / 2) = 1 / 2 := by
    rw [Int.fract]
    norm_num
  rw [hfract]
  positivity

set_option maxRecDepth 16384 in
/-- The candidate set generated at the C5 failing input: one feature with
zero offsets, one adaptively drawn threshold. -/
theorem sample_split_points_adaptive_eval :
    ((sample_split_points paramsAdaptive [trivialSample] engineHalf 0).1).candidates.map
        (fun p => p.2) =
      [[⟨draw_uniform_real engineHalf 4
          (compute_adaptive_threshold_range [trivialSample] ⟨0, 0, 0, 0⟩).1
          (compute_adaptive_threshold_range [trivialSample] ⟨0, 0, 0, 0⟩).2⟩]] := by
  rfl

/-- A generic preservation principle for left folds. -/
theorem foldl_inv {α β : Type} {P : α → Prop} (f : α → β → α) (l : List β) (init : α)
    (h0 : P init) (hstep : ∀ a b, P a → P (f a b)) : P (l.foldl f init) := by
  induction l generalizing init with
  | nil => exact h0
  | cons b l ih => exact ih _ (hstep _ _ h0)

/-- The threshold-drawing fold appends exactly one threshold per
iteration. -/
theorem draws_fold_length (e : RandomEngine) (lo hi : ℚ) (l : List ℕ)
    (acc : List ImageThreshold × ℕ) :
    ((l.foldl (fun (acc : List ImageThreshold × ℕ) _ =>
        (acc.1 ++ [⟨draw_uniform_real e acc.2 lo hi⟩], acc.2 + 1)) acc).1).length
      = acc.1.length + l.length := by
  induction l generalizing acc with
  | nil => simp
  | cons x l ih =>
    rw [List.foldl_cons, ih]
    simp
    omega

/-- Each iteration of the feature loop appends exactly one
(feature, thresholds) pair carrying `threshold_count params` thresholds and
grows `total_size` by the same amount. -/
theorem sample_one_feature_effect (params : ImageWeakLearnerParameters)
    (samples : List ImageSample) (e : RandomEngine)
    (st : ImageSplitPointCandidates × ℕ) :
    ∃ f ths, (sample_one_feature params samples e st).1.candidates
        = st.1.candidates ++ [(f, ths)] ∧
      ths.length = threshold_count params ∧
      (sample_one_feature params samples e st).1.total_size
        = st.1.total_size + threshold_count params := by
  have hlen : (sample_one_feature_thresholds params samples e st.2
      (sample_one_feature_offsets params e st.2)).1.length = threshold_count params := by
    rw [sample_one_feature_thresholds, threshold_count]
    by_cases hb : params.binary_images
    · simp [hb]
    · simp only [hb, if_false, Bool.false_eq_true]
      rw [draws_fold_length]
      simp
  exact ⟨sample_one_feature_offsets params e st.2,
    (sample_one_feature_thresholds params samples e st.2
      (sample_one_feature_offsets params e st.2)).1,
    rfl, hlen, by
      rw [sample_one_feature]
      show st.1.total_size + _ = _
      rw [hlen]⟩

/-- Folding the feature loop appends one pair per iteration. -/
theorem sample_fold_length (params : ImageWeakLearnerParameters)
    (samples : List ImageSample) (e : RandomEngine) (l : List ℕ)
    (st : ImageSplitPointCandidates × ℕ) :
    ((l.foldl (fun st _ => sample_one_feature params samples e st) st).1).candidates.length
      = st.1.candidates.length + l.length := by
  induction l generalizing st with
  | nil => simp
  | cons x l ih =>
    rw [List.foldl_cons, ih]
    obtain ⟨f, ths, hc, _, _⟩ := sample_one_feature_effect params samples e st
    rw [hc]
    simp
    omega

/-- Folding the feature loop preserves the uniform-threshold-count and
`total_size` invariants. -/
theorem sample_fold_inv (params : ImageWeakLearnerParameters)
    (samples : List ImageSample) (e : RandomEngine) (l : List ℕ)
    (st : ImageSplitPointCandidates × ℕ)
    (h1 : ∀ pair ∈ st.1.candidates, pair.2.length = threshold_count params)
    (h2 : st.1.total_size = st.1.candidates.length * threshold_count params) :
    (∀ pair ∈ ((l.foldl (fun st _ => sample_one_feature params samples e st) st).1).candidates,
        pair.2.length = threshold_count params) ∧
    ((l.foldl (fun st _ => sample_one_feature params samples e st) st).1).total_size
      = ((l.foldl (fun st _ => sample_one_feature params samples e st) st).1).candidates.length
          * threshold_count params := by
  induction l generalizing st with
  | nil => exact ⟨h1, h2⟩
  | cons x l ih =>
    rw [List.foldl_cons]
    obtain ⟨f, ths, hc, hlen, ht⟩ := sample_one_feature_effect params samples e st
    refine ih _ ?_ ?_
    · intro pair hpair
      rw [hc] at hpair
      rcases List.mem_append.mp hpair with h | h
      · exact h1 pair h
      · rw [List.mem_singleton.mp h]
        exact hlen
    · rw [ht, hc, h2]
      simp [Nat.succ_mul]

/-- With a uniform threshold count, the flattened length of the first `i`
features is `i * cnt`. -/
theorem flatLength_take_uniform (cs : List (ImageFeature × List ImageThreshold)) (cnt : ℕ)
    (h : ∀ p ∈ cs, p.2.length = cnt) :
    ∀ i, i ≤ cs.length → flatLength (cs.take i) = i * cnt := by
  induction cs with
  | nil =>
    intro i hi
    have h0 : i = 0 := Nat.le_zero.mp (by simpa using hi)
    subst h0
    simp [flatLength]
  | cons p rest ih =>
    intro i hi
    cases i with
    | zero => simp [flatLength]
    | succ i =>
      have hp : p.2.length = cnt := h p (List.mem_cons_self p rest)
      have hflat : flatLength (p :: rest.take i) = p.2.length + flatLength (rest.take i) := by
        simp [flatLength]
      rw [List.take_succ_cons, hflat, hp,
        ih (fun q hq => h q (List.mem_cons_of_mem p hq)) i (by simpa using hi)]
      ring

/-- With a uniform threshold count, the `get_split_point` loop at the
flattened index `i * cnt + j` returns feature `i`'s split point at its `j`-th
threshold. -/
theorem get_split_point_aux_uniform (cs : List (ImageFeature × List ImageThreshold)) (cnt : ℕ)
    (h : ∀ p ∈ cs, p.2.length = cnt) :
    ∀ i j, i < cs.length → j < (cs.getD i ((⟨0, 0, 0, 0⟩ : ImageFeature), [])).2.length →
      get_split_point_aux cs (i * cnt + j)
        = some (mkImageSplitPoint (cs.getD i ((⟨0, 0, 0, 0⟩ : ImageFeature), [])).1
            ((cs.getD i ((⟨0, 0, 0, 0⟩ : ImageFeature), [])).2.getD j ⟨0⟩)) := by
  induction cs with
  | nil =>
    intro i j hi
    simp at hi
  | cons p rest ih =>
    intro i j hi hj
    cases i with
    | zero =>
      have hj0 : j < p.2.length := by simpa using hj
      rw [get_split_point_aux]
      rw [dif_pos (by simpa using hj0)]
      simp [List.getD_eq_getElem _ _ hj0, List.get_eq_getElem,
        List.getElem?_eq_getElem hj0]
    | succ i =>
      have hp : p.2.length = cnt := h p (List.mem_cons_self p rest)
      have hix : (i + 1) * cnt + j = cnt + (i * cnt + j) := by ring
      rw [get_split_point_aux, dif_neg (by rw [hp, hix]; omega)]
      have hsub : (i + 1) * cnt + j - p.2.length = i * cnt + j := by
        rw [hp, hix, Nat.add_sub_cancel_left]
      rw [hsub]
      have hrest := ih (fun q hq => h q (List.mem_cons_of_mem p hq)) i j
        (by simpa using hi) (by simpa using hj)
      simpa using hrest

/-- C9, confirmed: every candidate set produced by `sample_split_points`
carries the same number of thresholds on every feature (2 when
`binary_images` is set, `num_of_thresholds` otherwise), `total_size` equals
`num_of_features` times that count, the statistics offset
`feature_index * thresholds.size()` used by `compute_split_statistics`
equals the sum of the threshold-list lengths of all prior features, and the
offset agrees with the flattened indexing of `get_split_point`. -/
theorem claim_C9 :
    ∀ (params : ImageWeakLearnerParameters) (samples : List ImageSample)
      (e : RandomEngine) (p0 : ℕ),
      ((sample_split_points params samples e p0).1).candidates.length
          = params.num_of_features ∧
      (∀ pair ∈ ((sample_split_points params samples e p0).1).candidates,
        pair.2.length = threshold_count params) ∧
      ((sample_split_points params samples e p0).1).total_size
          = params.num_of_features * threshold_count params ∧
      (∀ i, i < ((sample_split_points params samples e p0).1).candidates.length →
        i * (((sample_split_points params samples e p0).1).candidates.getD i
              ((⟨0, 0, 0, 0⟩ : ImageFeature), [])).2.length
          = flatLength (((sample_split_points params samples e p0).1).candidates.take i)) ∧
      (∀ i j, i < ((sample_split_points params samples e p0).1).candidates.length →
        j < (((sample_split_points params samples e p0).1).candidates.getD i
              ((⟨0, 0, 0, 0⟩ : ImageFeature), [])).2.length →
        ((sample_split_points params samples e p0).1).get_split_point
            (i * threshold_count params + j)
          = CallOutcome.ok (mkImageSplitPoint
              ((((sample_split_points params samples e p0).1).candidates.getD i
                  ((⟨0, 0, 0, 0⟩ : ImageFeature), [])).1)
              ((((sample_split_points params samples e p0).1).candidates.getD i
                  ((⟨0, 0, 0, 0⟩ : ImageFeature), [])).2.getD j ⟨0⟩))) := by
  intro params samples e p0
  have hlen : ((sample_split_points params samples e p0).1).candidates.length
      = params.num_of_features := by
    rw [sample_split_points, sample_fold_length]
    simp [emptyCandidates]
  have hinv := sample_fold_inv params samples e (List.range params.num_of_features)
    (emptyCandidates, p0) (by simp [emptyCandidates]) (by simp [emptyCandidates])
  rw [sample_split_points] at hlen ⊢
  refine ⟨hlen, hinv.1, by rw [hinv.2, hlen], ?_, ?_⟩
  · intro i hi
    have hget : ((((List.range params.num_of_features).foldl
          (fun st _ => sample_one_feature params samples e st)
          (emptyCandidates, p0)).1).candidates.getD i
            ((⟨0, 0, 0, 0⟩ : ImageFeature), [])).2.length = threshold_count params := by
      rw [List.getD_eq_getElem _ _ hi]
      exact hinv.1 _ (List.getElem_mem hi)
    rw [hget, flatLength_take_uniform _ _ hinv.1 i (le_of_lt hi)]
  · intro i j hi hj
    rw [ImageSplitPointCandidates.get_split_point,
      get_split_point_aux_uniform _ _ hinv.1 i j hi hj]

/-- C9, witness: the binary-image generator with one feature yields one
feature with the two thresholds −0.5 and +0.5, `total_size` 2, and
`get_split_point 1` returns that feature with threshold +0.5. -/
theorem claim_C9_witness :
    ((sample_split_points ⟨1, 5, 0, 0, 0, 0, 0, 0, false, true⟩ [] engineZero 0).1).total_size
        = 1 * threshold_count ⟨1, 5, 0, 0, 0, 0, 0, 0, false, true⟩ ∧
    ((sample_split_points ⟨1, 5, 0, 0, 0, 0, 0, 0, false, true⟩ [] engineZero 0).1).get_split_point
        (0 * threshold_count ⟨1, 5, 0, 0, 0, 0, 0, 0, false, true⟩ + 1)
      = CallOutcome.ok (mkImageSplitPoint
          ((((sample_split_points ⟨1, 5, 0, 0, 0, 0, 0, 0, false, true⟩ [] engineZero 0).1).candidates.getD 0
              ((⟨0, 0, 0, 0⟩ : ImageFeature), [])).1)
          ((((sample_split_points ⟨1, 5, 0, 0, 0, 0, 0, 0, false, true⟩ [] engineZero 0).1).candidates.getD 0
              ((⟨0, 0, 0, 0⟩ : ImageFeature), [])).2.getD 1 ⟨0⟩)) := by
  have h := claim_C9 ⟨1, 5, 0, 0, 0, 0, 0, 0, false, true⟩ [] engineZero 0
  exact ⟨h.2.2.1, h.2.2.2.2 0 1 (by decide) (by decide)⟩

/-- `listModify` preserves length. -/
theorem listModify_length {α : Type} (l : List α) (n : ℕ) (f : α → α) :
    (listModify l n f).length = l.length := by
  induction l generalizing n with
  | nil => rfl
  | cons a l ih =>
    cases n with
    | zero => rfl
    | succ n => simp [listModify, ih]

/-- Reading the modified position. -/
theorem listModify_getD_same {α : Type} (l : List α) (n : ℕ) (f : α → α) (d : α)
    (h : n < l.length) : (listModify l n f).getD n d = f (l.getD n d) := by
  induction l generalizing n with
  | nil => simp at h
  | cons a l ih =>
    cases n with
    | zero => rfl
    | succ n => simpa [listModify] using ih n (by simpa using h)

/-- Reading an unmodified position. -/
theorem listModify_getD_ne {α : Type} (l : List α) (n m : ℕ) (f : α → α) (d : α)
    (h : n ≠ m) : (listModify l n f).getD m d = l.getD m d := by
  induction l generalizing n m with
  | nil => rfl
  | cons a l ih =>
    cases n with
    | zero =>
      cases m with
      | zero => exact absurd rfl h
      | succ m => rfl
    | succ n =>
      cases m with
      | zero => rfl
      | succ m => simpa [listModify] using ih n m (by omega)

/-- C4, counterexample: with `minimum_information_gain = 1` and a best gain
of 0, the node is marked a leaf — but it still stores the chosen SplitPoint,
because `set_split_point` runs unconditionally before the leaf decision.
The claim's "keeps no SplitPoint" fails. -/
theorem claim_C4_counterexample :
    ((apply_best_split 1 0 treeThree 0 (spMarked, infoZeroGain)).getD 0
        ⟨false, none⟩).is_leaf = true ∧
    ((apply_best_split 1 0 treeThree 0 (spMarked, infoZeroGain)).getD 0
        ⟨false, none⟩).split_point = some spMarked := by
  constructor
  · rfl
  · rfl

/-- C4, amended: for every frontier node with a computed best split, the
chosen SplitPoint is stored first (unconditionally), both children's leaf
flags are then set to true, and finally the node is marked a leaf exactly
when the best gain is below `minimum_information_gain` or the node's total
number of samples is below `minimum_num_of_samples` — a node marked leaf
retains the stored SplitPoint (inert, since routing stops at leaves) — and
is marked internal otherwise, keeping the stored SplitPoint. -/
theorem claim_C4_amended :
    ∀ (min_gain : ℚ) (min_samples : ℕ) (tree : List TreeNode) (i : ℕ)
      (sp : ImageSplitPoint) (info : SplitInformation) (d : TreeNode),
      2 * i + 2 < tree.length →
      (((apply_best_split min_gain min_samples tree i (sp, info)).getD (2 * i + 1) d).is_leaf
          = true) ∧
      (((apply_best_split min_gain min_samples tree i (sp, info)).getD (2 * i + 2) d).is_leaf
          = true) ∧
      (((apply_best_split min_gain min_samples tree i (sp, info)).getD i d).split_point
          = some sp) ∧
      (((apply_best_split min_gain min_samples tree i (sp, info)).getD i d).is_leaf
          = if info.information_gain < min_gain ∨ info.total_num_of_samples < min_samples
            then true else false) := by
  intro min_gain min_samples tree i sp info d hbound
  have hne1 : i ≠ 2 * i + 1 := by omega
  have hne2 : i ≠ 2 * i + 2 := by omega
  have hne3 : 2 * i + 2 ≠ 2 * i + 1 := by omega
  have hne4 : 2 * i + 1 ≠ 2 * i + 2 := by omega
  have hlen0 : (set_split_point tree i sp).length = tree.length := by
    rw [set_split_point, listModify_length]
  have hlen1 : (set_leaf (set_split_point tree i sp) (2 * i + 1) true).length
      = tree.length := by
    rw [set_leaf, listModify_length, hlen0]
  have hlen2 : (set_leaf (set_leaf (set_split_point tree i sp) (2 * i + 1) true)
      (2 * i + 2) true).length = tree.length := by
    rw [set_leaf, listModify_length, hlen1]
  have hchild1 : ∀ b : Bool, ((set_leaf (set_leaf (set_leaf (set_split_point tree i sp)
        (2 * i + 1) true) (2 * i + 2) true) i b).getD (2 * i + 1) d).is_leaf = true := by
    intro b
    rw [set_leaf, listModify_getD_ne _ _ _ _ _ (by omega)]
    rw [set_leaf, listModify_getD_ne _ _ _ _ _ hne3]
    rw [set_leaf, listModify_getD_same _ _ _ _ (by omega)]
  have hchild2 : ∀ b : Bool, ((set_leaf (set_leaf (set_leaf (set_split_point tree i sp)
        (2 * i + 1) true) (2 * i + 2) true) i b).getD (2 * i + 2) d).is_leaf = true := by
    intro b
    rw [set_leaf, listModify_getD_ne _ _ _ _ _ (by omega)]
    rw [set_leaf, listModify_getD_same _ _ _ _ (by rw [hlen1]; exact hbound)]
  have hparent : ∀ b : Bool, ((set_leaf (set_leaf (set_leaf (set_split_point tree i sp)
        (2 * i + 1) true) (2 * i + 2) true) i b).getD i d).split_point = some sp ∧
      ((set_leaf (set_leaf (set_leaf (set_split_point tree i sp)
        (2 * i + 1) true) (2 * i + 2) true) i b).getD i d).is_leaf = b := by
    intro b
    rw [set_leaf, listModify_getD_same _ _ _ _ (by rw [hlen2]; omega)]
    rw [set_leaf, listModify_getD_ne _ _ _ _ _ (by omega)]
    rw [set_leaf, listModify_getD_ne _ _ _ _ _ (by omega)]
    rw [set_split_point, listModify_getD_same _ _ _ _ (by omega)]
    exact ⟨rfl, rfl⟩
  rw [apply_best_split]
  by_cases hcond : info.information_gain < min_gain ∨ info.total_num_of_samples < min_samples
  · rw [if_pos hcond, if_pos hcond]
    exact ⟨hchild1 true, hchild2 true, (hparent true).1, (hparent true).2⟩
  · rw [if_neg hcond, if_neg hcond]
    exact ⟨hchild1 false, hchild2 false, (hparent false).1, (hparent false).2⟩

/-- C4, witness for the amended theorem at the concrete low-gain input. -/
theorem claim_C4_witness :
    ((apply_best_split 1 0 treeThree 0 (spMarked, infoZeroGain)).getD 1
        ⟨false, none⟩).is_leaf = true ∧
    ((apply_best_split 1 0 treeThree 0 (spMarked, infoZeroGain)).getD 0
        ⟨false, none⟩).split_point = some spMarked := by
  have h := claim_C4_amended 1 0 treeThree 0 spMarked infoZeroGain ⟨false, none⟩
    (by decide)
  exact ⟨h.1, h.2.2.1⟩

/-- C2, failing input: a 3×1 image with three non-background pixels,
`samples_per_image_fraction = 0.99` (so `min(round(0.99·3), 3) = 3` samples
are drawn) and an engine whose uniform draws are all 0.  The loop draws
exactly 3 samples as the claim says, but because each iteration swaps the
drawn element with the vector's FIXED last slot (`back()`) instead of the
shrinking tail position `size − 1 − i`, a previously taken element re-enters
the draw prefix: the output pixels are (0,0), (2,0), (0,0) — pixel (0,0) is
taken twice, so the sample is not a without-replacement Fisher-Yates
subsample and the coordinates are not pairwise distinct. -/
theorem claim_C2_bug :
    ((load_samples_from_image_core paramsSubsample imageThreePixels engineZero 0).1).length
        = min (roundHalfAway (ratMulInt paramsSubsample.samples_per_image_fraction
              (imageThreePixels.width * imageThreePixels.height))).toNat
            (collect_non_background imageThreePixels
              paramsSubsample.background_label).length ∧
    ((load_samples_from_image_core paramsSubsample imageThreePixels engineZero 0).1).map
        (fun s => (s.x, s.y)) = [(0, 0), (2, 0), (0, 0)] ∧
    ¬ (((load_samples_from_image_core paramsSubsample imageThreePixels engineZero 0).1).map
        (fun s => (s.x, s.y))).Nodup := by
  refine ⟨by decide, by decide, by decide⟩

/-- Monotone cut functions are monotone between arbitrary indices. -/
theorem cut_mono (c : ℕ → ℕ) (mono : ∀ t, c t ≤ c (t + 1)) :
    ∀ {a b : ℕ}, a ≤ b → c a ≤ c b := by
  intro a b h
  induction b with
  | zero =>
    have h0 : a = 0 := Nat.le_zero.mp h
    subst h0
    exact le_refl _
  | succ b ih =>
    by_cases hab : a = b + 1
    · subst hab
      exact le_refl _
    · exact le_trans (ih (by omega)) (mono b)

/-- Concatenating the contiguous slices `[c i, c (i+1))` of a list for
`i < B` yields the single slice `[c 0, c B)`. -/
theorem flatten_slices {α : Type} (l : List α) (c : ℕ → ℕ)
    (mono : ∀ t, c t ≤ c (t + 1)) (B : ℕ) :
    ((List.range B).map (fun i => (l.drop (c i)).take (c (i + 1) - c i))).flatten
      = (l.drop (c 0)).take (c B - c 0) := by
  induction B with
  | zero => simp
  | succ B ih =>
    rw [List.range_succ, List.map_append, List.flatten_append, ih]
    simp only [List.map_cons, List.map_nil, List.flatten_cons, List.flatten_nil,
      List.append_nil]
    have h0B : c 0 ≤ c B := cut_mono c mono (Nat.zero_le B)
    have hB : c B ≤ c (B + 1) := mono B
    have hdrop : l.drop (c B) = (l.drop (c 0)).drop (c B - c 0) := by
      rw [List.drop_drop]
      congr 1
      omega
    rw [hdrop, ← List.take_add]
    congr 1
    omega

/-- C7, confirmed: for every image count N ≥ 1 and batch count B ≥ 1,
`compute_sample_bag_batches` returns exactly B batches; the drawn indices
number `round(bagging_fraction·N)` and lie in `[0, N)`; the concatenation of
the batches is the nondecreasing sort of the draws; and batch `i` is the
contiguous slice `[⌊i·M/B⌋, ⌊(i+1)·M/B⌋)` of the sorted list, of length
`⌊(i+1)·M/B⌋ − ⌊i·M/B⌋`. -/
theorem claim_C7 :
    ∀ (params : ImageSampleParameters) (N B : ℕ) (e : RandomEngine) (p0 : ℕ),
      1 ≤ N → 1 ≤ B →
      ((compute_sample_bag_batches params N B e p0).1).length = B ∧
      ((List.range ((roundHalfAway (ratMulInt params.bagging_fraction N)).toNat)).map
          (fun i => draw_uniform_int e (p0 + i) (N - 1))).length
        = (roundHalfAway (ratMulInt params.bagging_fraction N)).toNat ∧
      (∀ x ∈ (List.range ((roundHalfAway (ratMulInt params.bagging_fraction N)).toNat)).map
          (fun i => draw_uniform_int e (p0 + i) (N - 1)), x < N) ∧
      ((compute_sample_bag_batches params N B e p0).1).flatten
        = List.insertionSort (· ≤ ·)
            ((List.range ((roundHalfAway (ratMulInt params.bagging_fraction N)).toNat)).map
              (fun i => draw_uniform_int e (p0 + i) (N - 1))) ∧
      (List.insertionSort (· ≤ ·)
          ((List.range ((roundHalfAway (ratMulInt params.bagging_fraction N)).toNat)).map
            (fun i => draw_uniform_int e (p0 + i) (N - 1)))).Perm
        ((List.range ((roundHalfAway (ratMulInt params.bagging_fraction N)).toNat)).map
          (fun i => draw_uniform_int e (p0 + i) (N - 1))) ∧
      List.Sorted (· ≤ ·) (List.insertionSort (· ≤ ·)
        ((List.range ((roundHalfAway (ratMulInt params.bagging_fraction N)).toNat)).map
          (fun i => draw_uniform_int e (p0 + i) (N - 1)))) ∧
      (∀ i, i < B →
        ((compute_sample_bag_batches params N B e p0).1).getD i []
            = ((List.insertionSort (· ≤ ·)
                ((List.range ((roundHalfAway (ratMulInt params.bagging_fraction N)).toNat)).map
                  (fun i => draw_uniform_int e (p0 + i) (N - 1)))).drop
                (i * (roundHalfAway (ratMulInt params.bagging_fraction N)).toNat / B)).take
              ((i + 1) * (roundHalfAway (ratMulInt params.bagging_fraction N)).toNat / B
                - i * (roundHalfAway (ratMulInt params.bagging_fraction N)).toNat / B) ∧
        (((compute_sample_bag_batches params N B e p0).1).getD i []).length
            = (i + 1) * (roundHalfAway (ratMulInt params.bagging_fraction N)).toNat / B
                - i * (roundHalfAway (ratMulInt params.bagging_fraction N)).toNat / B) := by
  intro params N B e p0 hN hB
  set M := (roundHalfAway (ratMulInt params.bagging_fraction N)).toNat with hM
  set draws := (List.range M).map (fun i => draw_uniform_int e (p0 + i) (N - 1)) with hdraws
  set sorted := List.insertionSort (· ≤ ·) draws with hsorted
  have hdlen : draws.length = M := by simp [hdraws]
  have hslen : sorted.length = M := by
    rw [hsorted, List.length_insertionSort, hdlen]
  have mono : ∀ t, t * M / B ≤ (t + 1) * M / B := fun t =>
    Nat.div_le_div_right (Nat.mul_le_mul_right M (Nat.le_succ t))
  have hcB : B * M / B = M := Nat.mul_div_cancel_left M (by omega)
  refine ⟨by simp [compute_sample_bag_batches], hdlen, ?_, ?_, List.perm_insertionSort _ _,
    List.sorted_insertionSort _ _, ?_⟩
  · intro x hx
    rw [List.mem_map] at hx
    obtain ⟨i, _, rfl⟩ := hx
    rw [draw_uniform_int]
    have : N - 1 + 1 = N := by omega
    rw [this]
    exact Nat.mod_lt _ (by omega)
  · show ((List.range B).map (fun i =>
        (sorted.drop (compute_batch_start_index i B M)).take
          (compute_batch_start_index (i + 1) B M
            - compute_batch_start_index i B M))).flatten = sorted
    have h := flatten_slices sorted (fun t => t * M / B) mono B
    simp only [compute_batch_start_index]
    rw [h]
    simp only [Nat.zero_mul, Nat.zero_div, Nat.sub_zero, List.drop_zero]
    rw [hcB, ← hslen, List.take_length]
  · intro i hi
    have hgd : ((compute_sample_bag_batches params N B e p0).1).getD i []
        = (sorted.drop (compute_batch_start_index i B M)).take
            (compute_batch_start_index (i + 1) B M - compute_batch_start_index i B M) := by
      show ((List.range B).map _).getD i _ = _
      rw [List.getD_eq_getElem _ _ (by simpa using hi)]
      simp
    have hup : (i + 1) * M / B ≤ M := by
      calc (i + 1) * M / B ≤ B * M / B :=
            cut_mono (fun t => t * M / B) mono (by omega)
        _ = M := hcB
    refine ⟨hgd, ?_⟩
    rw [hgd]
    simp only [compute_batch_start_index, List.length_take, List.length_drop, hslen]
    omega

/-- C7, witness: one full bag (`bagging_fraction = 1`) of N = 2 images in
B = 2 batches with the identity integer draw stream: the two draws are 0 and
1, and the batches are the two singleton slices. -/
theorem claim_C7_witness :
    ((compute_sample_bag_batches ⟨mkRat 1 1, mkRat 1 10, 255⟩ 2 2
        ⟨fun p => p, fun _ => 0⟩ 0).1).length = 2 ∧
    ((compute_sample_bag_batches ⟨mkRat 1 1, mkRat 1 10, 255⟩ 2 2
        ⟨fun p => p, fun _ => 0⟩ 0).1).flatten
      = List.insertionSort (· ≤ ·)
          ((List.range ((roundHalfAway (ratMulInt (mkRat 1 1 : ℚ) 2)).toNat)).map
            (fun i => draw_uniform_int ⟨fun p => p, fun _ => 0⟩ (0 + i) (2 - 1))) := by
  have h := claim_C7 ⟨mkRat 1 1, mkRat 1 10, 255⟩ 2 2 ⟨fun p => p, fun _ => 0⟩ 0
    (by omega) (by omega)
  exact ⟨h.1, h.2.2.2.1⟩

/-- `mapFind` distributes over appended maps, preferring the left one. -/
theorem mapFind_append (m m' : List (ℕ × Image)) (k : ℕ) :
    mapFind (m ++ m') k = (mapFind m k).or (mapFind m' k) := by
  induction m with
  | nil => simp [mapFind]
  | cons q m ih =>
    by_cases hq : q.1 == k
    · simp [mapFind, List.find?_cons, hq]
    · simp only [mapFind, List.cons_append, List.find?_cons, hq] at ih ⊢
      exact ih

/-- A left `some` wins in `Option.or`. -/
theorem or_isSome_left {α : Type} (x y : Option α) (h : x.isSome = true) :
    (x.or y).isSome = true := by
  cases x with
  | none => simp at h
  | some a => rfl

/-- `ensure_image_is_loaded_from_old` preserves the loop invariant. -/
theorem inv_ensure_from_old (images : List Image) (old_map : List (ℕ × Image))
    (st : SampleProviderState) (idx : ℕ) (h : ProviderInv st) :
    ProviderInv (ensure_image_is_loaded_from_old images old_map st idx) := by
  rw [ensure_image_is_loaded_from_old]
  cases h1 : mapFind st.image_map idx with
  | some img => exact h
  | none =>
    cases h2 : mapFind old_map idx with
    | some img =>
      refine ⟨h.1, ?_⟩
      intro j hj
      rw [mapFind_append]
      exact or_isSome_left _ _ (h.2 j hj)
    | none =>
      constructor
      · rw [List.nodup_append]
        refine ⟨h.1, List.nodup_singleton idx, ?_⟩
        intro j hj hj'
        rw [List.mem_singleton] at hj'
        subst hj'
        have := h.2 j hj
        rw [h1] at this
        simp at this
      · intro j hj
        rw [List.mem_append, List.mem_singleton] at hj
        rcases hj with hj | hj
        · rw [mapFind_append]
          exact or_isSome_left _ _ (h.2 j hj)
        · subst hj
          rw [mapFind_append, h1]
          simp [mapFind, List.find?_cons]

/-- `ensure_image_is_loaded` preserves the loop invariant. -/
theorem inv_ensure_one (images : List Image) (st : SampleProviderState) (idx : ℕ)
    (h : ProviderInv st) : ProviderInv (ensure_image_is_loaded images st idx) := by
  rw [ensure_image_is_loaded]
  cases h1 : mapFind st.image_map idx with
  | some img => exact h
  | none =>
    constructor
    · rw [List.nodup_append]
      refine ⟨h.1, List.nodup_singleton idx, ?_⟩
      intro j hj hj'
      rw [List.mem_singleton] at hj'
      subst hj'
      have := h.2 j hj
      rw [h1] at this
      simp at this
    · intro j hj
      rw [List.mem_append, List.mem_singleton] at hj
      rcases hj with hj | hj
      · rw [mapFind_append]
        exact or_isSome_left _ _ (h.2 j hj)
      · subst hj
        rw [mapFind_append, h1]
        simp [mapFind, List.find?_cons]

/-- `load_samples_from_image` preserves the loop invariant (it only appends
samples after ensuring the image is loaded). -/
theorem inv_load_samples (params : ImageSampleParameters) (images : List Image)
    (e : RandomEngine) (st : SampleProviderState) (p : ℕ) (idx : ℕ)
    (h : ProviderInv st) :
    ProviderInv (load_samples_from_image params images e st p idx).1 := by
  have h1 := inv_ensure_one images st idx h
  exact ⟨h1.1, h1.2⟩

/-- C10, confirmed: within one `load_sample_batch`, the provider is invoked
at most once per image index (the call log has no repeats, whatever the
batch and however often an index repeats in it), while
`load_samples_from_image` runs once per occurrence of an index, each
occurrence consuming fresh engine draws.  Concretely, for the batch [0, 0]
over a 2-pixel image with `samples_per_image_fraction = 0.6` and an all-zero
draw stream: the provider is called exactly once, two engine draws are
consumed (one per occurrence), and the resulting sample list contains the
pixel (0,0) twice. -/
theorem claim_C10 :
    (∀ (params : ImageSampleParameters) (images : List Image) (e : RandomEngine)
      (batch : List ℕ) (st0 : SampleProviderState) (p0 : ℕ),
      st0.provider_call_log = [] →
      ((load_sample_batch params images e batch st0 p0).1).provider_call_log.Nodup) ∧
    ((load_sample_batch ⟨1, mkRat 3 5, 255⟩ [imageTwoPixels] engineZero [0, 0]
        ⟨[], [], []⟩ 0).1).provider_call_log = [0] ∧
    ((load_sample_batch ⟨1, mkRat 3 5, 255⟩ [imageTwoPixels] engineZero [0, 0]
        ⟨[], [], []⟩ 0).1).samples.map (fun s => (s.x, s.y)) = [(0, 0), (0, 0)] ∧
    ¬ (((load_sample_batch ⟨1, mkRat 3 5, 255⟩ [imageTwoPixels] engineZero [0, 0]
        ⟨[], [], []⟩ 0).1).samples.map (fun s => (s.x, s.y))).Nodup ∧
    (load_sample_batch ⟨1, mkRat 3 5, 255⟩ [imageTwoPixels] engineZero [0, 0]
        ⟨[], [], []⟩ 0).2 = 2 := by
  refine ⟨?_, by decide, by decide, by decide, by decide⟩
  intro params images e batch st0 p0 h0
  rw [load_sample_batch]
  have h := foldl_inv (P := fun acc : SampleProviderState × ℕ => ProviderInv acc.1)
    (fun acc image_index =>
      load_samples_from_image params images e
        (ensure_image_is_loaded_from_old images st0.image_map acc.1 image_index)
        acc.2 image_index)
    batch ({ st0 with samples := [], image_map := [] }, p0)
    ⟨by rw [h0]; exact List.nodup_nil, by rw [h0]; intro j hj; simp at hj⟩
    (fun acc idx hacc =>
      inv_load_samples params images e _ acc.2 idx
        (inv_ensure_from_old images st0.image_map acc.1 idx hacc))
  exact h.1

/-- C10, witness: the general at-most-once conclusion applied at the
concrete repeated batch. -/
theorem claim_C10_witness :
    ((load_sample_batch ⟨1, mkRat 3 5, 255⟩ [imageTwoPixels] engineZero [0, 0]
        ⟨[], [], []⟩ 0).1).provider_call_log.Nodup :=
  claim_C10.1 ⟨1, mkRat 3 5, 255⟩ [imageTwoPixels] engineZero [0, 0] ⟨[], [], []⟩ 0 rfl

end FastForest
